/-
Verification of the gecco pipeline engine (gecco/gecco.py) against its
natural-language specification.  The Python code is shallowly embedded:
strings are Lean String (with the character-list core exposed where the
code splits and joins on '.'), dicts keyed by module id are association
lists, sets of ids are duplicate-free string lists, and network and
filesystem effects are oracle functions passed as parameters.
-/
import Mathlib

namespace Gecco

/-! ### Python string primitives used by the PID-file registry

`s.split('.')` and `'.'.join(l)` from Python, embedded on the character
list underlying a `String`.  Python's `split` on a non-empty separator
returns `[""]` on the empty string and keeps empty fields, which is
exactly the behaviour of `splitOnDot` below. -/

def splitOnDot : List Char → List (List Char)
  | [] => [[]]
  | c :: rest =>
    let r := splitOnDot rest
    if c = '.' then [] :: r else (c :: r.headD []) :: r.tail

def joinDot : List (List Char) → List Char
  | [] => []
  | [f] => f
  | f :: fs => f ++ '.' :: joinDot fs

/-- Decimal digit character, used to embed Python's `str(port)`. -/
def digitChar (d : Nat) : Char :=
  if d = 0 then '0' else if d = 1 then '1' else if d = 2 then '2'
  else if d = 3 then '3' else if d = 4 then '4' else if d = 5 then '5'
  else if d = 6 then '6' else if d = 7 then '7' else if d = 8 then '8' else '9'

/-- Embedding of Python's `str(n)` for a non-negative integer `n`. -/
def natChars (n : Nat) : List Char :=
  if n < 10 then [digitChar n]
  else natChars (n / 10) ++ [digitChar (n % 10)]
decreasing_by exact Nat.div_lt_self (by omega) (by omega)

def digitVal (c : Char) : Nat := c.toNat - 48

def isDigit10 (c : Char) : Bool := 48 ≤ c.toNat && c.toNat ≤ 57

/-- Embedding of Python's `int(s)` on the strings that occur as port
fields: all-digit strings parse to their decimal value, anything else
raises `ValueError` (`none`). -/
def pyInt (s : String) : Option Nat :=
  if s.data.isEmpty || !s.data.all isDigit10 then none
  else some (s.data.foldl (fun a c => 10 * a + digitVal c) 0)

def charsToNat (l : List Char) : Nat := l.foldl (fun a c => 10 * a + digitVal c) 0

def pySplitDot (s : String) : List String := (splitOnDot s.data).map String.mk

def pyJoinDot (l : List String) : String := String.mk (joinDot (l.map String.data))

def natToString (n : Nat) : String := String.mk (natChars n)

/-- PID filename composition from `Corrector.startservers`:
`module.id + "." + host + "." + str(port) + ".pid"`. -/
def pidFileName (moduleId host : String) (port : Nat) : String :=
  moduleId ++ "." ++ host ++ "." ++ natToString port ++ ".pid"

/-- PID filename parsing from `Corrector.findservers`:
`fields = filename.split('.')[:-1]`, module id `fields[0]`, host
`".".join(fields[1:-1])`, port `int(fields[-1])` (the `int` call can
raise, hence the `Option`). -/
def parsePidName (filename : String) : Option (String × String × Nat) :=
  let fields := (pySplitDot filename).dropLast
  let moduleId := fields.headD ""
  let host := pyJoinDot ((fields.drop 1).dropLast)
  match pyInt (fields.getLastD "") with
  | none => none
  | some port => some (moduleId, host, port)

/-! ### The module registry and `Corrector.__iter__`

A module, reduced to the pure data consulted by the iterator and the
producer: its id, its `depends` list, its `UNIT` class and its
`submodule` flag.  The registry `self.modules` is an ordered dict keyed
by id, embedded as a list in insertion order.  `unitFilter`,
`prepareinput` and the other callbacks are functions and are passed
separately as parameters where needed. -/

inductive UnitType
  | document
  | paragraph
  | sentence
  | word
deriving DecidableEq, Repr

structure PModule where
  id : String
  depends : List String
  unit : UnitType
  submodule : Bool
deriving DecidableEq, Repr

def modIds (all : List PModule) : List String := all.map PModule.id

/-- Embedding of `done.add(x)` on a Python set represented as a
duplicate-free list. -/
def doneInsert (x : String) (done : List String) : List String :=
  if done.contains x then done else x :: done

/-- Result of one scan of `Corrector.__iter__`: the `postpone` list, the
updated `done` set, and the modules yielded during the scan, in order. -/
structure PassResult where
  postpone : List PModule
  done2 : List String
  yields : List PModule
deriving DecidableEq, Repr

/-- One pass of the loop body of `Corrector.__iter__`: scan
`self.modules.values()`; a module with a dependency not yet in `done` is
appended to `postpone`; `if module not in postpone` (each object is
visited once per scan, so this just tests whether the module was
postponed at its own turn) it is added to `done` and yielded. -/
def iterPass (scan : List PModule) (done : List String) : PassResult :=
  match scan with
  | [] => ⟨[], done, []⟩
  | m :: rest =>
    if m.depends.any (fun dep => !done.contains dep) then
      let r := iterPass rest done
      ⟨m :: r.postpone, r.done2, r.yields⟩
    else
      let r := iterPass rest (doneInsert m.id done)
      ⟨r.postpone, r.done2, m :: r.yields⟩

inductive IterStatus
  | finished
  | cyclicError
  | fuelOut
deriving DecidableEq, Repr

/-- The `while modules:` loop of `Corrector.__iter__`.  Each iteration
scans the whole registry (the code iterates `self.modules.values()`, not
the postponed list).  The cycle check `modules == postpone` compares the
previous postpone list with the new one; on the first iteration
`modules` is a `dict_values` object, which Python never reports equal to
a list, so the check is skipped (`first = true`).  The loop in the code
terminates on its own; `fuel` makes the embedding total, and
`correctorIter_not_fuelOut` below shows the budget is never exhausted. -/
def iterLoop (all : List PModule) :
    Nat → List PModule → List String → Bool → List PModule × IterStatus
  | 0, modules, _, _ =>
    if modules.isEmpty then ([], IterStatus.finished) else ([], IterStatus.fuelOut)
  | Nat.succ f, modules, done, first =>
    if modules.isEmpty then ([], IterStatus.finished)
    else
      let p := iterPass all done
      if first = false ∧ modules = p.postpone then (p.yields, IterStatus.cyclicError)
      else
        let r := iterLoop all f p.postpone p.done2 false
        (p.yields ++ r.1, r.2)

/-- Complete iteration of `Corrector.__iter__`: the sequence of yielded
modules and how the generator ended. -/
def correctorIter (all : List PModule) : List PModule × IterStatus :=
  iterLoop all (all.length + 3) all [] true

/-- Registry used as the failing input for C1 and C2: module "B" depends
on "A", and "B" precedes "A" in insertion order, so a second scan is
needed. -/
def modB : PModule := ⟨"B", ["A"], UnitType.word, false⟩

def modA : PModule := ⟨"A", [], UnitType.word, false⟩

/-- Invariant of the `done` set along the iteration: every id in it was
put there by yielding a module of the registry all of whose dependencies
are themselves in `done`. -/
def DoneInv (all : List PModule) (done : List String) : Prop :=
  ∀ x ∈ done, ∃ m, m ∈ all ∧ m.id = x ∧ ∀ d ∈ m.depends, d ∈ done

def modX : PModule := ⟨"X", ["Y"], UnitType.word, false⟩

def modY : PModule := ⟨"Y", ["X"], UnitType.word, false⟩

/-! ### The producer phase of `DataThread.__init__`

The FoLiA document is reduced to its id and the list of its structure
elements in document order; `doc.select(unit)` keeps the elements of one
type.  `prepareinput` is module specific and is passed as a parameter;
returning `none` models the documented "return None to skip". -/

structure Element where
  id : String
  type : UnitType
deriving DecidableEq, Repr

structure FoliaDoc where
  id : String
  elements : List Element
deriving DecidableEq, Repr

/-- Embedding of `self.units = set([m.UNIT for m in self])` from
`Corrector.__init__` (a Python set, here in first-occurrence order). -/
def correctorUnits (all : List PModule) : List UnitType :=
  ((correctorIter all).1.map PModule.unit).dedup

/-- Embedding of `if not module_ids or module.id in module_ids`. -/
def moduleSelected (moduleIds : List String) (m : PModule) : Bool :=
  moduleIds.isEmpty || moduleIds.contains m.id

/-- Input payloads `(module.id, unit_id, inputdata)` enqueued by the
producer part of `DataThread.__init__`: first the full-document modules,
then, for every non-document unit type in use, every element of that
type in document order, and for it every module (iterated in dependency
order) whose `UNIT` matches; `prepareinput` results that are not None
are enqueued. -/
def producerQueue (all : List PModule) (moduleIds : List String) (doc : FoliaDoc)
    (prepareDoc : PModule → FoliaDoc → Option String)
    (prepare : PModule → Element → Option String) :
    List (String × String × String) :=
  let seq := (correctorIter all).1
  let units := correctorUnits all
  let docPart :=
    if units.contains UnitType.document then
      seq.filterMap fun m =>
        if moduleSelected moduleIds m then
          if m.unit = UnitType.document then
            (prepareDoc m doc).map fun d => (m.id, doc.id, d)
          else none
        else none
    else []
  let elemPart :=
    units.flatMap fun u =>
      if u = UnitType.document then []
      else
        (doc.elements.filter fun e => e.type = u).flatMap fun e =>
          seq.filterMap fun m =>
            if moduleSelected moduleIds m then
              if m.unit = u then (prepare m e).map fun d => (m.id, e.id, d) else none
            else none
  docPart ++ elemPart

/-! ### The remote-dispatch retry loop of `ProcessorThread.run`

One payload, one module with a non-empty server list.  The worker keeps
a per-module sequence number; each iteration fetches
`getserver(seqnr)`, increments `seqnr`, breaks once
`seqnr >= startseqnr + 10 * len(servers)`, and otherwise makes one
connection/call attempt.  Whether the attempt at a given sequence number
succeeds is the network oracle; `ConnectionRefusedError` and any other
transport exception are both "move on to the next server". -/

def dispatchLoop (oracle : Nat → Bool) (limit : Nat) (seqnr : Nat) : Bool × Nat :=
  if limit ≤ seqnr + 1 then (false, 0)
  else if oracle seqnr then (true, 1)
  else
    ((dispatchLoop oracle limit (seqnr + 1)).1,
     (dispatchLoop oracle limit (seqnr + 1)).2 + 1)
termination_by limit - seqnr
decreasing_by omega

/-- Remote dispatch of one payload: result is (connected, number of
connection/call attempts made, whether `getserver` raised `IndexError`
because no servers exist). -/
def remoteDispatch (servers : List (String × Nat)) (oracle : Nat → Bool)
    (startseq : Nat) : Bool × Nat × Bool :=
  if servers.isEmpty then (false, 0, true)
  else
    ((dispatchLoop oracle (startseq + 10 * servers.length) startseq).1,
     (dispatchLoop oracle (startseq + 10 * servers.length) startseq).2, false)

/-! ### `Module.verifysettings` and configuration loading

A module specification is the settings dict of one `modulespec` entry,
with the keys consulted by the embedded code; `none` models an absent
key.  The `source`/`sources` and `model`/`models` normalisation of the
Python code always produces lists, so the embedding starts from lists.
Specifications carrying a `submodules` key are outside this embedding
(none of the verified claims involve them). -/

structure ModuleSpec where
  id : Option String
  enabledKey : Option Bool
  disabledKey : Option Bool
  localKey : Option Bool
  submoduleKey : Option Bool
  servers : List (String × Nat)
  depends : Option (List String)
  sources : List String
  models : List String
deriving DecidableEq, Repr

/-- The module attributes set by `Module.verifysettings`. -/
structure ModuleState where
  id : String
  depends : List String
  submodule : Bool
  localFlag : Bool
  sources : List String
  models : List String
  servers : List (String × Nat)
deriving DecidableEq, Repr

/-- Embedding of `Module.verifysettings`: missing id, forbidden id
characters, mismatched source/model counts and a submodule marked
`local` are fatal; `submodule` and `local` come from their settings keys
with default `False`, `depends` defaults to the empty list. -/
def verifysettings (s : ModuleSpec) : Except String ModuleState :=
  match s.id with
  | none => Except.error "Module must have an ID!"
  | some mid =>
    if mid.data.any (fun c => c == '.' || c == ' ' || c == '/') then
      Except.error "Invalid character in module ID (no spaces, period and slashes allowed)"
    else if ¬ s.sources.isEmpty ∧ s.sources.length ≠ s.models.length then
      Except.error "Number of specified sources and models should be equal!"
    else if s.submoduleKey.getD false && s.localKey.getD false then
      Except.error "submodules can not be local only"
    else
      Except.ok ⟨mid, s.depends.getD [], s.submoduleKey.getD false,
        s.localKey.getD false, s.sources, s.models, s.servers⟩

/-- Embedding of `self.modules[module.id] = module` (`Corrector.append`)
on the ordered dict: an existing key keeps its position and gets the new
value, a new key is appended at the end. -/
def odInsert (reg : List (String × ModuleState)) (k : String) (v : ModuleState) :
    List (String × ModuleState) :=
  if reg.any (fun p => p.1 == k) then
    reg.map fun p => if p.1 == k then (k, v) else p
  else reg ++ [(k, v)]

/-- Embedding of the skip test in `Corrector.parseconfig`:
`if 'enabled' in modulespec and not modulespec['enabled'] or 'disabled'
in modulespec and modulespec['disabled']: continue`. -/
def specSkipped (s : ModuleSpec) : Bool :=
  s.enabledKey == some false || s.disabledKey == some true

/-- One iteration of the module loop of `Corrector.parseconfig`:
skipped specs are dropped, a spec without id is fatal, otherwise the
module is constructed (running `verifysettings`) and appended. -/
def parseStep (reg : List (String × ModuleState)) (spec : ModuleSpec) :
    Except String (List (String × ModuleState)) :=
  if specSkipped spec then Except.ok reg
  else if spec.id.isNone then Except.error "Mising ID in module specification"
  else
    match verifysettings spec with
    | Except.error e => Except.error e
    | Except.ok m => Except.ok (odInsert reg m.id m)

def parseconfigLoop (specs : List ModuleSpec) (reg : List (String × ModuleState)) :
    Except String (List (String × ModuleState)) :=
  match specs with
  | [] => Except.ok reg
  | spec :: rest =>
    match parseStep reg spec with
    | Except.error e => Except.error e
    | Except.ok reg2 => parseconfigLoop rest reg2

/-- The registry built by `Corrector.parseconfig` from the module
specifications of a configuration. -/
def parseconfigModules (specs : List ModuleSpec) :
    Except String (List (String × ModuleState)) :=
  parseconfigLoop specs []

/-! ### The server registry: `Corrector.findservers` and
`Corrector.stopservers`

The run directory is a list of PID filenames.  The probe (a TCP
connect, the `%GETLOAD%` control message and the float reply) is the
oracle `probe host port`; `none` covers the timeout, refused and
non-float replies, which the code skips silently.  The reported load is
opaque data (an integer here; no claim computes with it).  `MYHOSTS`,
the identity set of the current host, is likewise a parameter. -/

structure SModule where
  id : String
  localFlag : Bool
  forcelocal : Bool
  servers : List (String × Nat × Int)
deriving DecidableEq, Repr

/-- Embedding of the reset at the top of `findservers`:
`for module in self.modules.values(): module.servers = []`. -/
def resetServers (reg : List SModule) : List SModule :=
  reg.map fun m => { m with servers := [] }

/-- One PID file handled by `findservers`: split the name, drop the
trailing "pid", look the first field up in the registry (a `KeyError`
skips the file), join the middle fields into the host, parse the port
(`int` may raise, which propagates), probe the server, and on success
append `(host, port, load)` to the module's server list, forcing
`module.local = True` when the `forcelocal` override is set. -/
def fsStep (probe : String → Nat → Option Int) (reg : List SModule)
    (file : String) : Except String (List SModule) :=
  if (reg.find? fun m => m.id == (pySplitDot file).dropLast.headD "").isNone then
    Except.ok reg
  else
    match pyInt ((pySplitDot file).dropLast.getLastD "") with
    | none => Except.error "ValueError: invalid port in PID filename"
    | some port =>
      match probe (pyJoinDot (((pySplitDot file).dropLast.drop 1).dropLast)) port with
      | none => Except.ok reg
      | some load =>
        Except.ok (reg.map fun m =>
          if m.id == (pySplitDot file).dropLast.headD "" then
            { m with
                servers := m.servers ++
                  [(pyJoinDot (((pySplitDot file).dropLast.drop 1).dropLast), port, load)],
                localFlag := if m.forcelocal then true else m.localFlag }
          else m)

def findserversLoop (probe : String → Nat → Option Int) :
    List String → List SModule → Except String (List SModule)
  | [], reg => Except.ok reg
  | file :: rest, reg =>
    match fsStep probe reg file with
    | Except.error e => Except.error e
    | Except.ok reg2 => findserversLoop probe rest reg2

/-- Embedding of `Corrector.findservers`: reset every module's server
list, then process each PID file of the run directory. -/
def findservers (reg : List SModule) (files : List String)
    (probe : String → Nat → Option Int) : Except String (List SModule) :=
  findserversLoop probe files (resetServers reg)

/-- The guard of the stop loop in `Corrector.stopservers`:
`if not module.local and (not module_ids or module.id in module_ids)
and host in MYHOSTS`. -/
def stopCond (myhosts targeted : List String) (m : SModule) (host : String) : Bool :=
  !m.localFlag && (targeted.isEmpty || targeted.contains m.id) &&
    myhosts.contains host

/-- The inner loop of `stopservers` over one module's probed server
entries: for each entry passing the guard, send the termination signal
to the recorded PID (collected in the kill list) and unlink the PID
file. -/
def stopInner (myhosts targeted : List String) (m : SModule) :
    List (String × Nat × Int) → List String × List (String × String × Nat) →
      List String × List (String × String × Nat)
  | [], acc => acc
  | (host, port, _) :: rest, acc =>
    if stopCond myhosts targeted m host then
      stopInner myhosts targeted m rest
        (acc.1.filter fun f => f != pidFileName m.id host port,
         acc.2 ++ [(m.id, host, port)])
    else stopInner myhosts targeted m rest acc

def stopOuter (myhosts targeted : List String) :
    List SModule → List String × List (String × String × Nat) →
      List String × List (String × String × Nat)
  | [], acc => acc
  | m :: rest, acc =>
    stopOuter myhosts targeted rest (stopInner myhosts targeted m m.servers acc)

/-- Embedding of `Corrector.stopservers`: run `findservers`, then walk
the registry and stop every probed server entry passing the guard.
Returns the probed registry, the PID files remaining in the run
directory and the `(module, host, port)` triples that were signalled. -/
def stopservers (reg : List SModule) (files : List String)
    (probe : String → Nat → Option Int) (myhosts targeted : List String) :
    Except String (List SModule × List String × List (String × String × Nat)) :=
  match findservers reg files probe with
  | Except.error e => Except.error e
  | Except.ok reg2 =>
    Except.ok (reg2, (stopOuter myhosts targeted reg2 (files, [])).1,
      (stopOuter myhosts targeted reg2 (files, [])).2)

/-- Invariant behind the run-time half of C4: a module with the
`forcelocal` override whose probe found at least one server has been
flipped to local. -/
def ForcelocalInv (reg : List SModule) : Prop :=
  ∀ m ∈ reg, m.forcelocal = true → m.servers ≠ [] → m.localFlag = true

/-! ### The consumer loop of `DataThread.run` and the worker's enqueue

Values travelling on the output queue keep Python's None/truthiness
distinctions: `pynone` is `None`; a string or a list is falsy exactly
when empty.  `processoutput` (per module id) and FQL query execution are
oracles; an `Except.error` models a raised exception, which the code
catches and logs.  The effect of the loop is what it appended to the
document-editing history: the `processoutput` invocations, the queries
that executed, the per-query `infoqueue.put(module.id)` completion
marks, and the logged failures.  A record whose module id is unknown to
the registry would crash the thread (an uncaught `KeyError`); records
here carry ids of registered modules, as all worker-produced records
do. -/

inductive PyData
  | pynone
  | pystr (s : String)
  | pylist (xs : List String)
deriving DecidableEq, Repr

def PyData.truthy : PyData → Bool
  | PyData.pynone => false
  | PyData.pystr s => !s.isEmpty
  | PyData.pylist xs => !xs.isEmpty

structure OutRecord where
  moduleId : Option String
  unitId : Option String
  outputdata : PyData
  inputdata : PyData
deriving DecidableEq, Repr

/-- Embedding of the end-of-queue test: `module_id is None and unit_id
is None and outputdata is None and inputdata is None`. -/
def OutRecord.isSentinel (r : OutRecord) : Bool :=
  r.moduleId.isNone && r.unitId.isNone && decide (r.outputdata = PyData.pynone) &&
    decide (r.inputdata = PyData.pynone)

/-- Embedding of `if queries is not None: if isinstance(queries, str):
queries = (queries,)`. -/
def queriesOf : PyData → Option (List String)
  | PyData.pynone => none
  | PyData.pystr s => some [s]
  | PyData.pylist xs => some xs

structure ConsumeEffect where
  calls : List (String × String)
  executed : List String
  infoPuts : List String
  failures : List String
deriving DecidableEq, Repr

def emptyEff : ConsumeEffect := ⟨[], [], [], []⟩

def effAppend (a b : ConsumeEffect) : ConsumeEffect :=
  ⟨a.calls ++ b.calls, a.executed ++ b.executed, a.infoPuts ++ b.infoPuts,
   a.failures ++ b.failures⟩

/-- Whether executing one FQL query succeeds under the oracle. -/
def execOk (ex : String → Except String Unit) (q : String) : Bool :=
  match ex q with
  | Except.ok _ => true
  | Except.error _ => false

/-- The `for query in queries` loop: each query is executed in its own
try/except, a success puts the module id on the info queue, a
`SyntaxError`, `QueryError` or any other exception is logged and the
loop continues with the next query. -/
def runQueries (ex : String → Except String Unit) (mid : String) :
    List String → ConsumeEffect
  | [] => emptyEff
  | q :: rest =>
    match ex q with
    | Except.ok _ => effAppend ⟨[], [q], [mid], []⟩ (runQueries ex mid rest)
    | Except.error e => effAppend ⟨[], [], [], [e]⟩ (runQueries ex mid rest)

/-- One non-sentinel record of the output queue: skipped when
`outputdata` is falsy (`elif outputdata:`); otherwise `processoutput` is
invoked — an exception is logged and yields no queries — and the
resulting queries are executed one by one. -/
def consumeRecord (po : String → PyData → PyData → String → Except String PyData)
    (ex : String → Except String Unit) : OutRecord → ConsumeEffect
  | ⟨some mid, some uid, out, inp⟩ =>
    if out.truthy then
      match po mid out inp uid with
      | Except.error e => ⟨[(mid, uid)], [], [], [e]⟩
      | Except.ok queries =>
        match queriesOf queries with
        | none => ⟨[(mid, uid)], [], [], []⟩
        | some qs => effAppend ⟨[(mid, uid)], [], [], []⟩ (runQueries ex mid qs)
    else emptyEff
  | _ => emptyEff

/-- The `while not self._stop` loop of `DataThread.run` over the queued
records, stopping at the sentinel. -/
def consumerLoop (po : String → PyData → PyData → String → Except String PyData)
    (ex : String → Except String Unit) : List OutRecord → ConsumeEffect
  | [] => emptyEff
  | r :: rest =>
    if r.isSentinel then emptyEff
    else effAppend (consumeRecord po ex r) (consumerLoop po ex rest)

/-- `DataThread.run` in full: the consumer loop, then unconditionally
`module.finish(...)` for every module (finalised = true) and the
document save (saved = true). -/
def runConsumer (po : String → PyData → PyData → String → Except String PyData)
    (ex : String → Except String Unit) (recs : List OutRecord) :
    ConsumeEffect × Bool × Bool :=
  (consumerLoop po ex recs, true, true)

/-- The worker's enqueue after a local run (`ProcessorThread.run`):
`if outputdata is not None: self.outputqueue.put((module.id, unit_id,
outputdata, inputdata))` — only None is filtered, not falsiness. -/
def workerEnqueue (mid uid : String) (outputdata inputdata : PyData) :
    List OutRecord :=
  if outputdata = PyData.pynone then []
  else [⟨some mid, some uid, outputdata, inputdata⟩]

theorem splitOnDot_ne_nil (l : List Char) : splitOnDot l ≠ [] := by
  cases l with
  | nil => simp [splitOnDot]
  | cons c rest =>
    simp only [splitOnDot]
    split <;> simp

theorem splitOnDot_append_dot (a b : List Char) :
    splitOnDot (a ++ '.' :: b) = splitOnDot a ++ splitOnDot b := by
  induction a with
  | nil => simp [splitOnDot]
  | cons c a ih =>
    obtain ⟨f, fs, hfa⟩ : ∃ f fs, splitOnDot a = f :: fs := by
      cases h : splitOnDot a with
      | nil => exact absurd h (splitOnDot_ne_nil a)
      | cons f fs => exact ⟨f, fs, rfl⟩
    have hS : splitOnDot (a ++ '.' :: b) = f :: (fs ++ splitOnDot b) := by
      rw [ih, hfa, List.cons_append]
    show splitOnDot (c :: (a ++ '.' :: b)) = splitOnDot (c :: a) ++ splitOnDot b
    by_cases hc : c = '.' <;> simp [splitOnDot, hc, hS, hfa]

theorem splitOnDot_no_dot (a : List Char) (h : '.' ∉ a) : splitOnDot a = [a] := by
  induction a with
  | nil => simp [splitOnDot]
  | cons c a ih =>
    have hc : ¬ c = '.' := fun hh => h (hh ▸ List.mem_cons_self c a)
    have ha : '.' ∉ a := fun hh => h (List.mem_cons_of_mem c hh)
    simp [splitOnDot, ih ha, hc]

theorem joinDot_splitOnDot (l : List Char) : joinDot (splitOnDot l) = l := by
  induction l with
  | nil => simp [splitOnDot, joinDot]
  | cons c rest ih =>
    obtain ⟨f, fs, hfa⟩ : ∃ f fs, splitOnDot rest = f :: fs := by
      cases h : splitOnDot rest with
      | nil => exact absurd h (splitOnDot_ne_nil rest)
      | cons f fs => exact ⟨f, fs, rfl⟩
    by_cases hc : c = '.'
    · subst hc
      simp only [splitOnDot, if_pos rfl]
      rw [hfa] at ih ⊢
      show joinDot ([] :: f :: fs) = '.' :: rest
      simp [joinDot, ih]
    · simp only [splitOnDot, if_neg hc, hfa]
      rw [hfa] at ih
      cases fs with
      | nil => simpa [joinDot] using congrArg (c :: ·) ih
      | cons g gs =>
        show joinDot ((c :: f) :: g :: gs) = c :: rest
        simp only [joinDot] at ih ⊢
        simp [ih]

theorem digitVal_digitChar (d : Nat) (h : d < 10) : digitVal (digitChar d) = d := by
  interval_cases d <;> rfl

theorem digitChar_ne_dot (d : Nat) : digitChar d ≠ '.' := by
  unfold digitChar
  repeat' split
  all_goals decide

theorem isDigit10_digitChar (d : Nat) : isDigit10 (digitChar d) = true := by
  unfold digitChar
  repeat' split
  all_goals decide

theorem dot_not_mem_natChars (n : Nat) : '.' ∉ natChars n := by
  induction n using Nat.strong_induction_on with
  | _ n ih =>
    unfold natChars
    split
    · intro hmem
      rw [List.mem_singleton] at hmem
      exact digitChar_ne_dot n hmem.symm
    · intro hmem
      rcases List.mem_append.mp hmem with h | h
      · exact ih (n / 10) (Nat.div_lt_self (by omega) (by omega)) h
      · rw [List.mem_singleton] at h
        exact digitChar_ne_dot (n % 10) h.symm

theorem natChars_all_digits (n : Nat) : (natChars n).all isDigit10 = true := by
  induction n using Nat.strong_induction_on with
  | _ n ih =>
    unfold natChars
    split
    · simp [isDigit10_digitChar]
    · rw [List.all_append]
      simp [ih (n / 10) (Nat.div_lt_self (by omega) (by omega)), isDigit10_digitChar]

theorem natChars_ne_nil (n : Nat) : natChars n ≠ [] := by
  unfold natChars
  split <;> simp

theorem charsToNat_natChars (n : Nat) : charsToNat (natChars n) = n := by
  induction n using Nat.strong_induction_on with
  | _ n ih =>
    unfold natChars
    split
    · simp [charsToNat, digitVal_digitChar n (by omega)]
    · rw [charsToNat, List.foldl_append]
      have h10 : n % 10 < 10 := Nat.mod_lt _ (by omega)
      have := ih (n / 10) (Nat.div_lt_self (by omega) (by omega))
      rw [charsToNat] at this
      simp only [this, List.foldl_cons, List.foldl_nil, digitVal_digitChar _ h10]
      omega

theorem data_mk (l : List Char) : (String.mk l).data = l := rfl

theorem mk_data (s : String) : String.mk s.data = s := rfl

theorem data_append (a b : String) : (a ++ b).data = a.data ++ b.data := rfl

/-- C8: composing the PID filename `m.h.p.pid` and reparsing it with the
first field as module id, the last field as port and the intermediate
fields rejoined with '.' as host recovers exactly `(m, h, p)`, including
for dotted IPv4 hosts. -/
theorem pid_name_roundtrip (m h : String) (p : Nat)
    (hm : ∀ c ∈ m.data, c ≠ '.' ∧ c ≠ ' ' ∧ c ≠ '/') :
    parsePidName (pidFileName m h p) = some (m, h, p) := by
  have hmd : '.' ∉ m.data := fun hc => ((hm '.' hc).1 rfl)
  have hdata : (pidFileName m h p).data =
      m.data ++ '.' :: (h.data ++ '.' :: (natChars p ++ '.' :: ['p', 'i', 'd'])) := by
    simp [pidFileName, data_append, natToString, data_mk]
  have hsplit : splitOnDot (pidFileName m h p).data =
      [m.data] ++ splitOnDot h.data ++ [natChars p] ++ [['p', 'i', 'd']] := by
    rw [hdata, splitOnDot_append_dot, splitOnDot_append_dot, splitOnDot_append_dot,
      splitOnDot_no_dot m.data hmd, splitOnDot_no_dot (natChars p) (dot_not_mem_natChars p),
      show splitOnDot ['p', 'i', 'd'] = [['p', 'i', 'd']] from rfl]
    simp
  have hfields : (pySplitDot (pidFileName m h p)).dropLast =
      (String.mk m.data :: (splitOnDot h.data).map String.mk) ++ [String.mk (natChars p)] := by
    rw [pySplitDot, hsplit]
    simp only [List.map_append, List.map_cons, List.map_nil]
    rw [show ((([String.mk m.data] ++ (splitOnDot h.data).map String.mk ++
        [String.mk (natChars p)]) ++ [String.mk ['p', 'i', 'd']]).dropLast =
        [String.mk m.data] ++ (splitOnDot h.data).map String.mk ++ [String.mk (natChars p)])
      from by rw [List.dropLast_concat]]
    simp
  rw [parsePidName, hfields]
  have hhead : ((String.mk m.data :: (splitOnDot h.data).map String.mk) ++
      [String.mk (natChars p)]).headD "" = m := by
    simp [mk_data]
  have hlast : ((String.mk m.data :: (splitOnDot h.data).map String.mk) ++
      [String.mk (natChars p)]).getLastD "" = String.mk (natChars p) := by
    rw [List.getLastD_concat]
  have hmid : (((String.mk m.data :: (splitOnDot h.data).map String.mk) ++
      [String.mk (natChars p)]).drop 1).dropLast = (splitOnDot h.data).map String.mk := by
    rw [List.cons_append, List.drop_succ_cons, List.drop_zero, List.dropLast_concat]
  have hport : pyInt (String.mk (natChars p)) = some p := by
    have h2 : (natChars p).isEmpty = false := by
      cases hnc : natChars p with
      | nil => exact absurd hnc (natChars_ne_nil p)
      | cons a l => rfl
    have h3 := charsToNat_natChars p
    rw [charsToNat] at h3
    simp [pyInt, data_mk, natChars_all_digits, h2, h3]
  rw [hhead, hlast, hmid, hport]
  have hjoin : pyJoinDot ((splitOnDot h.data).map String.mk) = h := by
    rw [pyJoinDot]
    have : ((splitOnDot h.data).map String.mk).map String.data = splitOnDot h.data := by
      rw [List.map_map]
      have : (String.data ∘ String.mk) = id := by
        funext l
        rfl
      rw [this, List.map_id]
    rw [this, joinDot_splitOnDot, mk_data]
  rw [hjoin]

/-- Witness for C8 at a concrete module id, dotted IPv4 host and port. -/
theorem pid_name_roundtrip_witness :
    parsePidName (pidFileName "errlist" "127.0.0.1" 8080) =
      some ("errlist", "127.0.0.1", 8080) :=
  pid_name_roundtrip "errlist" "127.0.0.1" 8080 (by decide)

/-- C1: the claim says an acyclic registry is iterated with every module
yielded exactly once.  The code rescans the full registry on every pass,
so on the acyclic registry [B depends on A; A] the iterator yields
A, B, A: module A is yielded twice. -/
theorem iter_duplicate_yield :
    (correctorIter [modB, modA]).1.map PModule.id = ["A", "B", "A"] ∧
    (correctorIter [modB, modA]).2 = IterStatus.finished ∧
    ((correctorIter [modB, modA]).1.map PModule.id).count "A" = 2 := by
  decide

/-! ### Lemmas about the iterator -/

theorem mem_doneInsert {y x : String} {done : List String} :
    y ∈ doneInsert x done ↔ y = x ∨ y ∈ done := by
  unfold doneInsert
  split
  · rename_i h
    have hx : x ∈ done := List.elem_iff.mp h
    constructor
    · exact fun hy => Or.inr hy
    · rintro (rfl | hy)
      · exact hx
      · exact hy
  · exact List.mem_cons

theorem doneInsert_nodup {x : String} {done : List String} (h : done.Nodup) :
    (doneInsert x done).Nodup := by
  unfold doneInsert
  split
  · exact h
  · rename_i hc
    refine List.nodup_cons.mpr ⟨fun hx => hc (List.elem_iff.mpr hx), h⟩

theorem deps_done_of_not_any {m : PModule} {done : List String}
    (h : ¬ (m.depends.any fun dep => !done.contains dep) = true) :
    ∀ d ∈ m.depends, d ∈ done := by
  intro d hd
  by_contra hnd
  apply h
  refine List.any_eq_true.mpr ⟨d, hd, ?_⟩
  cases hc : done.contains d with
  | false => rfl
  | true => exact absurd (List.elem_iff.mp hc) hnd

theorem not_done_of_bnot {done : List String} {d : String}
    (hb : (!done.contains d) = true) : d ∉ done := by
  intro hmem
  have hc : done.contains d = true := List.elem_iff.mpr hmem
  rw [hc] at hb
  simp at hb

theorem iterPass_done2_suffix (scan : List PModule) (done : List String) :
    ∃ pre, (iterPass scan done).done2 = pre ++ done := by
  induction scan generalizing done with
  | nil => exact ⟨[], rfl⟩
  | cons m rest ih =>
    simp only [iterPass]
    split
    · exact ih done
    · by_cases hc : done.contains m.id = true
      · obtain ⟨pre, hp⟩ := ih done
        refine ⟨pre, ?_⟩
        show (iterPass rest (doneInsert m.id done)).done2 = pre ++ done
        unfold doneInsert
        rw [if_pos hc]
        exact hp
      · obtain ⟨pre, hp⟩ := ih (m.id :: done)
        refine ⟨pre ++ [m.id], ?_⟩
        show (iterPass rest (doneInsert m.id done)).done2 = pre ++ [m.id] ++ done
        unfold doneInsert
        rw [if_neg hc, hp]
        simp

theorem iterPass_done_mono {scan : List PModule} {done : List String} :
    ∀ x ∈ done, x ∈ (iterPass scan done).done2 := by
  obtain ⟨pre, hp⟩ := iterPass_done2_suffix scan done
  intro x hx
  rw [hp]
  exact List.mem_append_right _ hx

theorem iterPass_nodup (scan : List PModule) :
    ∀ done, done.Nodup → (iterPass scan done).done2.Nodup := by
  induction scan with
  | nil => exact fun done h => h
  | cons m rest ih =>
    intro done h
    simp only [iterPass]
    split
    · exact ih done h
    · exact ih _ (doneInsert_nodup h)

theorem iterPass_done2_mem (scan : List PModule) :
    ∀ done x, x ∈ (iterPass scan done).done2 →
      x ∈ done ∨ ∃ m, m ∈ scan ∧ m.id = x := by
  induction scan with
  | nil => exact fun done x hx => Or.inl hx
  | cons m rest ih =>
    intro done x hx
    simp only [iterPass] at hx
    split at hx
    · rcases ih done x hx with h | ⟨m2, hm2, hid⟩
      · exact Or.inl h
      · exact Or.inr ⟨m2, List.mem_cons_of_mem _ hm2, hid⟩
    · rcases ih _ x hx with h | ⟨m2, hm2, hid⟩
      · rcases mem_doneInsert.mp h with heq | h2
        · exact Or.inr ⟨m, List.mem_cons_self m rest, heq.symm⟩
        · exact Or.inl h2
      · exact Or.inr ⟨m2, List.mem_cons_of_mem _ hm2, hid⟩

theorem DoneInv_nil (all : List PModule) : DoneInv all [] :=
  fun x hx => absurd hx (List.not_mem_nil x)

theorem iterPass_DoneInv (all scan : List PModule) :
    ∀ done, DoneInv all done → (∀ m ∈ scan, m ∈ all) →
      DoneInv all (iterPass scan done).done2 := by
  induction scan with
  | nil => exact fun done hinv _ => hinv
  | cons m rest ih =>
    intro done hinv hsub
    simp only [iterPass]
    split
    · exact ih done hinv fun m2 h => hsub m2 (List.mem_cons_of_mem _ h)
    · rename_i hdep
      refine ih (doneInsert m.id done) ?_ fun m2 h => hsub m2 (List.mem_cons_of_mem _ h)
      intro x hx
      rcases mem_doneInsert.mp hx with heq | hxd
      · refine ⟨m, hsub m (List.mem_cons_self m rest), heq.symm, ?_⟩
        intro d hd
        exact mem_doneInsert.mpr (Or.inr (deps_done_of_not_any hdep d hd))
      · obtain ⟨m2, hm2, hid, hdeps⟩ := hinv x hxd
        exact ⟨m2, hm2, hid, fun d hd => mem_doneInsert.mpr (Or.inr (hdeps d hd))⟩

theorem iterPass_postpone_sub (scan : List PModule) :
    ∀ done m, m ∈ (iterPass scan done).postpone → m ∈ scan := by
  induction scan with
  | nil => intro done m h; exact absurd h (List.not_mem_nil m)
  | cons m rest ih =>
    intro done m2 h
    simp only [iterPass] at h
    split at h
    · rcases List.mem_cons.mp h with rfl | h2
      · exact List.mem_cons_self _ _
      · exact List.mem_cons_of_mem _ (ih done m2 h2)
    · exact List.mem_cons_of_mem _ (ih _ m2 h)

theorem iterPass_postpone_missing (scan : List PModule) :
    ∀ done m, m ∈ (iterPass scan done).postpone →
      ∃ d, d ∈ m.depends ∧ d ∉ done := by
  induction scan with
  | nil => intro done m h; exact absurd h (List.not_mem_nil m)
  | cons m rest ih =>
    intro done m2 h
    simp only [iterPass] at h
    split at h
    · rename_i hdep
      rcases List.mem_cons.mp h with rfl | h2
      · obtain ⟨d, hd, hb⟩ := List.any_eq_true.mp hdep
        exact ⟨d, hd, not_done_of_bnot hb⟩
      · exact ih done m2 h2
    · obtain ⟨d, hd, hnd⟩ := ih _ m2 h
      exact ⟨d, hd, fun hmem => hnd (mem_doneInsert.mpr (Or.inr hmem))⟩

theorem iterPass_done2_ids (all scan : List PModule) (done : List String)
    (hscan : ∀ m ∈ scan, m ∈ all) (hdone : ∀ x ∈ done, x ∈ modIds all) :
    ∀ x ∈ (iterPass scan done).done2, x ∈ modIds all := by
  intro x hx
  rcases iterPass_done2_mem scan done x hx with h | ⟨m, hm, hid⟩
  · exact hdone x h
  · exact hid ▸ List.mem_map_of_mem PModule.id (hscan m hm)

/-- If every registry module whose id lies in `S` has a dependency in
`S`, the ids of `S` never enter `done` and the corresponding modules are
postponed on every scan. -/
theorem iterPass_S (all : List PModule) (S : List String)
    (hcl : ∀ m, m ∈ all → m.id ∈ S → ∃ d, d ∈ m.depends ∧ d ∈ S) :
    ∀ scan done, (∀ m ∈ scan, m ∈ all) → (∀ x ∈ S, x ∉ done) →
      (∀ x ∈ S, x ∉ (iterPass scan done).done2) ∧
      (∀ m ∈ scan, m.id ∈ S → m ∈ (iterPass scan done).postpone) := by
  intro scan
  induction scan with
  | nil =>
    intro done _ hdisj
    exact ⟨hdisj, fun m h => absurd h (List.not_mem_nil m)⟩
  | cons m rest ih =>
    intro done hsub hdisj
    simp only [iterPass]
    split
    · obtain ⟨h1, h2⟩ :=
        ih done (fun m2 h => hsub m2 (List.mem_cons_of_mem _ h)) hdisj
      refine ⟨h1, ?_⟩
      intro m2 hm2 hS
      rcases List.mem_cons.mp hm2 with rfl | h
      · exact List.mem_cons_self _ _
      · exact List.mem_cons_of_mem _ (h2 m2 h hS)
    · rename_i hdep
      have hmid : m.id ∉ S := by
        intro hS
        obtain ⟨d, hd, hdS⟩ := hcl m (hsub m (List.mem_cons_self m rest)) hS
        exact hdisj d hdS (deps_done_of_not_any hdep d hd)
      have hdisj2 : ∀ x ∈ S, x ∉ doneInsert m.id done := by
        intro x hx hmem
        rcases mem_doneInsert.mp hmem with heq | hmem2
        · exact hmid (heq ▸ hx)
        · exact hdisj x hx hmem2
      obtain ⟨h1, h2⟩ :=
        ih (doneInsert m.id done) (fun m2 h => hsub m2 (List.mem_cons_of_mem _ h)) hdisj2
      refine ⟨h1, ?_⟩
      intro m2 hm2 hS
      rcases List.mem_cons.mp hm2 with rfl | h
      · exact absurd hS hmid
      · exact h2 m2 h hS

theorem isEmpty_false_of_ne_nil {α : Type} {l : List α} (h : l ≠ []) :
    l.isEmpty = false := by
  cases l with
  | nil => exact absurd rfl h
  | cons a t => rfl

theorem iterLoop_nil (all : List PModule) :
    ∀ fuel done first, (iterLoop all fuel [] done first).2 = IterStatus.finished := by
  intro fuel done first
  cases fuel <;> rfl

theorem iterLoop_zero (all : List PModule) (modules : List PModule)
    (done : List String) (first : Bool) (hne : modules ≠ []) :
    iterLoop all 0 modules done first = ([], IterStatus.fuelOut) := by
  cases modules with
  | nil => exact absurd rfl hne
  | cons a t => rfl

theorem iterLoop_succ (all : List PModule) (f : Nat) (modules : List PModule)
    (done : List String) (first : Bool) (hne : modules ≠ []) :
    iterLoop all (f + 1) modules done first =
      if first = false ∧ modules = (iterPass all done).postpone then
        ((iterPass all done).yields, IterStatus.cyclicError)
      else
        ((iterPass all done).yields ++
          (iterLoop all f (iterPass all done).postpone (iterPass all done).done2 false).1,
         (iterLoop all f (iterPass all done).postpone (iterPass all done).done2 false).2) := by
  cases modules with
  | nil => exact absurd rfl hne
  | cons a t => rfl

theorem nodup_subset_length {l1 l2 : List String} (h1 : l1.Nodup)
    (h2 : ∀ x ∈ l1, x ∈ l2) : l1.length ≤ l2.length :=
  (List.subperm_of_subset h1 h2).length_le

theorem id_inj {all : List PModule} (hnd : (modIds all).Nodup) {m m2 : PModule}
    (hm : m ∈ all) (hm2 : m2 ∈ all) (h : m.id = m2.id) : m = m2 :=
  List.inj_on_of_nodup_map hnd hm hm2 h

/-- With ids present in `S` never entering `done` and hence their
modules always postponed, the iterator loop can never finish normally. -/
theorem iterLoop_not_finished (all : List PModule) (S : List String)
    (hcl : ∀ m, m ∈ all → m.id ∈ S → ∃ d, d ∈ m.depends ∧ d ∈ S)
    (m0 : PModule) (hm0 : m0 ∈ all) (hm0S : m0.id ∈ S) :
    ∀ fuel modules done first, (∀ x ∈ S, x ∉ done) → modules ≠ [] →
      (iterLoop all fuel modules done first).2 ≠ IterStatus.finished := by
  intro fuel
  induction fuel with
  | zero =>
    intro modules done first hdisj hne
    rw [iterLoop_zero all modules done first hne]
    simp
  | succ f ih =>
    intro modules done first hdisj hne
    rw [iterLoop_succ all f modules done first hne]
    split
    · simp
    · have hps := iterPass_S all S hcl all done (fun m h => h) hdisj
      have hpost_ne : (iterPass all done).postpone ≠ [] := by
        have hmem := hps.2 m0 hm0 hm0S
        intro hnil
        rw [hnil] at hmem
        exact absurd hmem (List.not_mem_nil m0)
      have := ih (iterPass all done).postpone (iterPass all done).done2 false hps.1 hpost_ne
      simpa using this

/-- The pass budget `all.length + 3` is sufficient: between two passes
`done` either grows strictly (at most `all.length` times) or the very
next comparison `modules == postpone` trips the cycle error. -/
theorem iterLoop_adequate (all : List PModule) (hnd : (modIds all).Nodup) :
    ∀ fuel dprev, DoneInv all dprev → dprev.Nodup →
      (∀ x ∈ dprev, x ∈ modIds all) →
      all.length + 2 ≤ fuel + (iterPass all dprev).done2.length →
      (iterLoop all fuel (iterPass all dprev).postpone
        (iterPass all dprev).done2 false).2 ≠ IterStatus.fuelOut := by
  intro fuel
  induction fuel with
  | zero =>
    intro dprev hinv hnod hsubids hbound
    exfalso
    have h1 : (iterPass all dprev).done2.Nodup := iterPass_nodup all dprev hnod
    have h2 : ∀ x ∈ (iterPass all dprev).done2, x ∈ modIds all :=
      iterPass_done2_ids all all dprev (fun m h => h) hsubids
    have h3 := nodup_subset_length h1 h2
    rw [modIds, List.length_map] at h3
    omega
  | succ f ih =>
    intro dprev hinv hnod hsubids hbound
    have hinv2 : DoneInv all (iterPass all dprev).done2 :=
      iterPass_DoneInv all all dprev hinv (fun m h => h)
    have hnod2 : (iterPass all dprev).done2.Nodup := iterPass_nodup all dprev hnod
    have hsubids2 : ∀ x ∈ (iterPass all dprev).done2, x ∈ modIds all :=
      iterPass_done2_ids all all dprev (fun m h => h) hsubids
    by_cases hemp : (iterPass all dprev).postpone = []
    · rw [hemp, iterLoop_nil]
      simp
    · rw [iterLoop_succ all f _ _ false hemp]
      split
      · simp
      · by_cases hstall :
          (iterPass all (iterPass all dprev).done2).done2 = (iterPass all dprev).done2
        · by_cases hemp2 : (iterPass all (iterPass all dprev).done2).postpone = []
          · rw [hemp2, iterLoop_nil]
            simp
          · obtain ⟨mp, hmp⟩ :
                ∃ mp, mp ∈ (iterPass all (iterPass all dprev).done2).postpone := by
              cases hpp : (iterPass all (iterPass all dprev).done2).postpone with
              | nil => exact absurd hpp hemp2
              | cons a t => exact ⟨a, hpp ▸ List.mem_cons_self a t⟩
            have hmp_all : mp ∈ all :=
              iterPass_postpone_sub all (iterPass all dprev).done2 mp hmp
            obtain ⟨d, hd, hdnot⟩ :=
              iterPass_postpone_missing all (iterPass all dprev).done2 mp hmp
            have hmpid_not : mp.id ∉ (iterPass all dprev).done2 := by
              intro hin
              obtain ⟨m2, hm2, hid2, hdeps⟩ := hinv2 mp.id hin
              have heq : m2 = mp := id_inj hnd hm2 hmp_all hid2
              subst heq
              exact hdnot (hdeps d hd)
            have hlen : (iterPass all dprev).done2.length + 1 ≤ all.length := by
              have hn : (mp.id :: (iterPass all dprev).done2).Nodup :=
                List.nodup_cons.mpr ⟨hmpid_not, hnod2⟩
              have hs : ∀ x ∈ mp.id :: (iterPass all dprev).done2, x ∈ modIds all := by
                intro x hx
                rcases List.mem_cons.mp hx with rfl | h
                · exact List.mem_map_of_mem PModule.id hmp_all
                · exact hsubids2 x h
              have := nodup_subset_length hn hs
              rw [modIds, List.length_map] at this
              simpa using this
            obtain ⟨f2, rfl⟩ : ∃ f2, f = f2 + 1 := ⟨f - 1, by omega⟩
            rw [hstall, iterLoop_succ all f2 _ _ false hemp2]
            rw [if_pos ⟨rfl, rfl⟩]
            simp
        · obtain ⟨pre, hpre⟩ := iterPass_done2_suffix all (iterPass all dprev).done2
          have hgrow : (iterPass all dprev).done2.length + 1 ≤
              (iterPass all (iterPass all dprev).done2).done2.length := by
            cases hp : pre with
            | nil =>
              rw [hp] at hpre
              exact absurd (by simpa using hpre) hstall
            | cons a t =>
              rw [hp] at hpre
              rw [hpre, List.length_append, List.length_cons]
              omega
          have := ih (iterPass all dprev).done2 hinv2 hnod2 hsubids2 (by omega)
          simpa using this

/-- The `while modules:` loop of `Corrector.__iter__` always terminates
on its own (the fuel of the embedding is never exhausted), for any
registry with distinct module ids. -/
theorem correctorIter_not_fuelOut (all : List PModule)
    (hnd : (modIds all).Nodup) : (correctorIter all).2 ≠ IterStatus.fuelOut := by
  rw [correctorIter]
  cases all with
  | nil => decide
  | cons a rest =>
    rw [show (a :: rest).length + 3 = ((a :: rest).length + 2) + 1 from rfl,
      iterLoop_succ (a :: rest) ((a :: rest).length + 2) (a :: rest) [] true
        (List.cons_ne_nil a rest)]
    rw [if_neg (by simp)]
    have := iterLoop_adequate (a :: rest) hnd ((a :: rest).length + 2) []
      (DoneInv_nil _) List.nodup_nil
      (fun x hx => absurd hx (List.not_mem_nil x)) (by omega)
    simpa using this

/-- C6: a registry whose `depends` relation contains a cycle makes
`Corrector.__iter__` raise the unsolvable-dependencies error after
finitely many passes: the iteration neither terminates normally nor
runs forever. -/
theorem iter_cycle_error (all cyc : List PModule)
    (hnd : (modIds all).Nodup) (hne : cyc ≠ [])
    (hsub : ∀ m ∈ cyc, m ∈ all)
    (hcyc : ∀ i, i < cyc.length →
      (cyc.getD ((i + 1) % cyc.length) ⟨"", [], UnitType.word, false⟩).id ∈
        (cyc.getD i ⟨"", [], UnitType.word, false⟩).depends) :
    (correctorIter all).2 = IterStatus.cyclicError := by
  have hlenpos : 0 < cyc.length := List.length_pos.mpr hne
  have hcl : ∀ m, m ∈ all → m.id ∈ cyc.map PModule.id →
      ∃ d, d ∈ m.depends ∧ d ∈ cyc.map PModule.id := by
    intro m hm hS
    obtain ⟨c, hc, hcid⟩ := List.mem_map.mp hS
    have hceq : c = m := id_inj hnd (hsub c hc) hm hcid
    obtain ⟨⟨i, hi⟩, hgi⟩ := List.mem_iff_get.mp hc
    have hmod : (i + 1) % cyc.length < cyc.length := Nat.mod_lt _ hlenpos
    refine ⟨(cyc.getD ((i + 1) % cyc.length) ⟨"", [], UnitType.word, false⟩).id, ?_, ?_⟩
    · have hstep := hcyc i hi
      rw [List.getD_eq_get cyc _ hi, hgi, hceq] at hstep
      exact hstep
    · rw [List.getD_eq_get cyc _ hmod]
      exact List.mem_map_of_mem PModule.id (cyc.get_mem _ _)
  have hm0 : cyc.get ⟨0, hlenpos⟩ ∈ all := hsub _ (cyc.get_mem _ _)
  have hm0S : (cyc.get ⟨0, hlenpos⟩).id ∈ cyc.map PModule.id :=
    List.mem_map_of_mem PModule.id (cyc.get_mem _ _)
  have hall_ne : all ≠ [] := by
    intro h
    rw [h] at hm0
    exact absurd hm0 (List.not_mem_nil _)
  have h1 := iterLoop_not_finished all (cyc.map PModule.id) hcl _ hm0 hm0S
    (all.length + 3) all [] true (fun x _ hx => absurd hx (List.not_mem_nil x)) hall_ne
  have h1c : (correctorIter all).2 ≠ IterStatus.finished := h1
  have h2 := correctorIter_not_fuelOut all hnd
  cases hv : (correctorIter all).2 with
  | finished => exact absurd hv h1c
  | cyclicError => rfl
  | fuelOut => exact absurd hv h2

/-- Witness for C6: the two-module cycle X depends on Y, Y depends on X
is rejected with the cycle error. -/
theorem iter_cycle_error_witness :
    (correctorIter [modX, modY]).2 = IterStatus.cyclicError :=
  iter_cycle_error [modX, modY] [modX, modY] (by decide) (by decide)
    (by decide) (by decide)

/-- C2: the claim says each enabled non-submodule module enqueues
exactly one payload per matching element.  On the registry
[B depends on A; A] (both of unit type word, not submodules, filter
accepting everything) the iterator yields A twice, so the producer
enqueues the payload `("A", "e1", _)` twice for the single word
element. -/
theorem producer_duplicate_enqueue :
    ((producerQueue [modB, modA] [] ⟨"doc", [⟨"e1", UnitType.word⟩]⟩
        (fun _ _ => none) (fun m e => some (m.id ++ ":" ++ e.id))).map
      (fun r => (r.1, r.2.1)) = [("A", "e1"), ("B", "e1"), ("A", "e1")]) ∧
    (((producerQueue [modB, modA] [] ⟨"doc", [⟨"e1", UnitType.word⟩]⟩
        (fun _ _ => none) (fun m e => some (m.id ++ ":" ++ e.id))).map
      (fun r => (r.1, r.2.1))).count ("A", "e1") = 2) := by
  decide

theorem dispatchLoop_le (oracle : Nat → Bool) (limit : Nat) :
    ∀ k seqnr, limit - seqnr ≤ k →
      (dispatchLoop oracle limit seqnr).2 ≤ limit - (seqnr + 1) := by
  intro k
  induction k with
  | zero =>
    intro seqnr h
    unfold dispatchLoop
    rw [if_pos (by omega)]
    simp
  | succ k ih =>
    intro seqnr h
    unfold dispatchLoop
    split
    · simp
    · rename_i hlim
      split
      · omega
      · have := ih (seqnr + 1) (by omega)
        simp only []
        omega

theorem dispatchLoop_spec (oracle : Nat → Bool) (limit : Nat) :
    ∀ k seqnr, limit - seqnr ≤ k →
      ((dispatchLoop oracle limit seqnr).1 = true →
        1 ≤ (dispatchLoop oracle limit seqnr).2 ∧
        oracle (seqnr + (dispatchLoop oracle limit seqnr).2 - 1) = true ∧
        ∀ j, j + 1 < (dispatchLoop oracle limit seqnr).2 →
          oracle (seqnr + j) = false) ∧
      ((dispatchLoop oracle limit seqnr).1 = false →
        ∀ j, j < (dispatchLoop oracle limit seqnr).2 →
          oracle (seqnr + j) = false) := by
  intro k
  induction k with
  | zero =>
    intro seqnr h
    unfold dispatchLoop
    rw [if_pos (by omega)]
    constructor
    · intro hc
      exact absurd hc (by simp)
    · intro _ j hj
      exact absurd hj (by omega)
  | succ k ih =>
    intro seqnr h
    unfold dispatchLoop
    split
    · constructor
      · intro hc
        exact absurd hc (by simp)
      · intro _ j hj
        exact absurd hj (by simp at hj)
    · rename_i hlim
      split
      · rename_i horacle
        constructor
        · intro _
          refine ⟨by omega, ?_, ?_⟩
          · have harith : seqnr + (true, 1).2 - 1 = seqnr := by omega
            rw [harith]
            exact horacle
          · intro j hj
            exact absurd hj (by omega)
        · intro hc
          exact absurd hc (by simp)
      · rename_i horacle
        have hfalse : oracle seqnr = false := by
          cases hq : oracle seqnr with
          | false => rfl
          | true => exact absurd hq horacle
        obtain ⟨ih1, ih2⟩ := ih (seqnr + 1) (by omega)
        constructor
        · intro hc
          simp only [] at hc
          obtain ⟨hge, hsucc, hprev⟩ := ih1 hc
          refine ⟨by omega, ?_, ?_⟩
          · have harith : seqnr + ((dispatchLoop oracle limit (seqnr + 1)).2 + 1) - 1 =
                seqnr + 1 + (dispatchLoop oracle limit (seqnr + 1)).2 - 1 := by omega
            simp only []
            rw [harith]
            exact hsucc
          · intro j hj
            simp only [] at hj
            cases j with
            | zero => exact hfalse
            | succ j2 =>
              have harith : seqnr + (j2 + 1) = seqnr + 1 + j2 := by omega
              rw [harith]
              exact hprev j2 (by omega)
        · intro hc
          simp only [] at hc
          intro j hj
          simp only [] at hj
          cases j with
          | zero => exact hfalse
          | succ j2 =>
            have harith : seqnr + (j2 + 1) = seqnr + 1 + j2 := by omega
            rw [harith]
            exact ih2 hc j2 (by omega)

/-- C3: dispatching one payload against a non-empty server list makes at
most `10 * len(servers)` connection/call attempts, and the loop stops at
the first attempt that succeeds (every earlier attempt failed; if it
never connected, all attempts failed). -/
theorem remote_dispatch_retry_budget (servers : List (String × Nat))
    (oracle : Nat → Bool) (startseq : Nat) (hne : servers ≠ []) :
    (remoteDispatch servers oracle startseq).2.1 ≤ 10 * servers.length ∧
    ((remoteDispatch servers oracle startseq).1 = true →
      oracle (startseq + (remoteDispatch servers oracle startseq).2.1 - 1) = true ∧
      ∀ j, j + 1 < (remoteDispatch servers oracle startseq).2.1 →
        oracle (startseq + j) = false) ∧
    ((remoteDispatch servers oracle startseq).1 = false →
      ∀ j, j < (remoteDispatch servers oracle startseq).2.1 →
        oracle (startseq + j) = false) := by
  have hlen : 1 ≤ servers.length := by
    cases servers with
    | nil => exact absurd rfl hne
    | cons a t => simp
  have hM : servers.isEmpty = false := isEmpty_false_of_ne_nil hne
  have hle := dispatchLoop_le oracle (startseq + 10 * servers.length)
    ((startseq + 10 * servers.length) - startseq) startseq (by omega)
  have hspec := dispatchLoop_spec oracle (startseq + 10 * servers.length)
    ((startseq + 10 * servers.length) - startseq) startseq (by omega)
  simp only [remoteDispatch, hM]
  refine ⟨by simp; omega, ?_, ?_⟩
  · intro hc
    simp only [Bool.false_eq_true, if_false] at hc ⊢
    exact ⟨(hspec.1 hc).2.1, (hspec.1 hc).2.2⟩
  · intro hc
    simp only [Bool.false_eq_true, if_false] at hc ⊢
    exact hspec.2 hc

/-- Witness for C3: one server, success on the sixth attempt, budget
respected. -/
theorem remote_dispatch_retry_budget_witness :
    (remoteDispatch [(("localhost" : String), (1234 : Nat))]
        (fun n => decide (5 ≤ n)) 0).2.1 ≤
      10 * [(("localhost" : String), (1234 : Nat))].length :=
  (remote_dispatch_retry_budget [("localhost", 1234)]
    (fun n => decide (5 ≤ n)) 0 (by decide)).1

theorem verify_id_isSome {spec : ModuleSpec} {m : ModuleState}
    (h : verifysettings spec = Except.ok m) : spec.id.isNone = false := by
  cases hs : spec.id with
  | none =>
    unfold verifysettings at h
    rw [hs] at h
    exact Except.noConfusion h
  | some v => rfl

theorem verify_local_eq_setting (spec : ModuleSpec) (m : ModuleState)
    (h : verifysettings spec = Except.ok m) :
    m.localFlag = spec.localKey.getD false := by
  unfold verifysettings at h
  split at h
  · exact Except.noConfusion h
  · split at h
    · exact Except.noConfusion h
    · split at h
      · exact Except.noConfusion h
      · split at h
        · exact Except.noConfusion h
        · injection h with h2
          rw [← h2]

/-- C4 counterexample: a specification with no servers and no `local`
key produces a module whose `local` flag is false, while the claim says
it should be true exactly because no servers are configured. -/
theorem local_flag_counterexample :
    verifysettings (ModuleSpec.mk (some "m") none none none none [] none [] []) =
      Except.ok ⟨"m", [], false, false, [], [], []⟩ ∧
    (ModuleSpec.mk (some "m") none none none none [] none [] []).servers.isEmpty =
      true := ⟨rfl, rfl⟩

theorem parseStep_ok (reg : List (String × ModuleState)) (spec : ModuleSpec)
    (m : ModuleState) (hns : specSkipped spec = false)
    (h : verifysettings spec = Except.ok m) :
    parseStep reg spec = Except.ok (odInsert reg m.id m) := by
  unfold parseStep
  rw [if_neg (by simp [hns]), if_neg (by simp [verify_id_isSome h]), h]

/-- C7 counterexample: two enabled module specifications share the id
"x"; loading does not fail, the second silently replaces the first. -/
theorem duplicate_id_not_fatal :
    parseconfigModules
      [ModuleSpec.mk (some "x") none none none none [] none [] [],
       ModuleSpec.mk (some "x") none none none none [] (some ["d"]) [] []] =
      Except.ok [("x", ⟨"x", ["d"], false, false, [], [], []⟩)] := by
  rfl

/-- C7 amended: loading a configuration in which two module
specifications carry the same id succeeds; the later module replaces the
earlier one in the registry, which ends up with a single entry holding
the second module. -/
theorem duplicate_id_replaces (s1 s2 : ModuleSpec) (m1 m2 : ModuleState)
    (hns1 : specSkipped s1 = false) (hns2 : specSkipped s2 = false)
    (h1 : verifysettings s1 = Except.ok m1) (h2 : verifysettings s2 = Except.ok m2)
    (hid : m1.id = m2.id) :
    parseconfigModules [s1, s2] = Except.ok [(m2.id, m2)] := by
  have e1 : parseStep [] s1 = Except.ok [(m1.id, m1)] := by
    rw [parseStep_ok [] s1 m1 hns1 h1]
    rfl
  have e2 : parseStep [(m1.id, m1)] s2 = Except.ok [(m2.id, m2)] := by
    rw [parseStep_ok [(m1.id, m1)] s2 m2 hns2 h2, ← hid]
    simp [odInsert]
  show parseconfigLoop [s1, s2] [] = Except.ok [(m2.id, m2)]
  simp only [parseconfigLoop, e1, e2]

theorem stopInner_subset (myhosts targeted : List String) (m : SModule) :
    ∀ servers acc x, x ∈ (stopInner myhosts targeted m servers acc).1 → x ∈ acc.1 := by
  intro servers
  induction servers with
  | nil => intro acc x hx; exact hx
  | cons e rest ih =>
    intro acc x hx
    obtain ⟨host, port, load⟩ := e
    simp only [stopInner] at hx
    split at hx
    · exact List.mem_of_mem_filter (ih _ x hx)
    · exact ih acc x hx

theorem stopInner_killed_mono (myhosts targeted : List String) (m : SModule) :
    ∀ servers acc y, y ∈ acc.2 → y ∈ (stopInner myhosts targeted m servers acc).2 := by
  intro servers
  induction servers with
  | nil => intro acc y hy; exact hy
  | cons e rest ih =>
    intro acc y hy
    obtain ⟨host, port, load⟩ := e
    simp only [stopInner]
    split
    · exact ih _ y (List.mem_append_left _ hy)
    · exact ih acc y hy

theorem stopInner_removes (myhosts targeted : List String) (m : SModule)
    (host : String) (port : Nat) (load : Int)
    (hcond : stopCond myhosts targeted m host = true) :
    ∀ servers acc, (host, port, load) ∈ servers →
      pidFileName m.id host port ∉ (stopInner myhosts targeted m servers acc).1 ∧
      (m.id, host, port) ∈ (stopInner myhosts targeted m servers acc).2 := by
  intro servers
  induction servers with
  | nil => intro acc h; exact absurd h (List.not_mem_nil _)
  | cons e rest ih =>
    intro acc hmem
    rcases List.mem_cons.mp hmem with heq | hrest
    · subst heq
      simp only [stopInner, hcond, if_true]
      constructor
      · intro hx
        have hx2 := stopInner_subset myhosts targeted m rest _ _ hx
        have := List.of_mem_filter hx2
        simp at this
      · exact stopInner_killed_mono myhosts targeted m rest _ _
          (List.mem_append_right _ (List.mem_singleton.mpr rfl))
    · obtain ⟨host2, port2, load2⟩ := e
      simp only [stopInner]
      split
      · exact ih _ hrest
      · exact ih acc hrest

theorem stopOuter_subset (myhosts targeted : List String) :
    ∀ regs acc x, x ∈ (stopOuter myhosts targeted regs acc).1 → x ∈ acc.1 := by
  intro regs
  induction regs with
  | nil => intro acc x hx; exact hx
  | cons m rest ih =>
    intro acc x hx
    exact stopInner_subset myhosts targeted m m.servers acc x (ih _ x hx)

theorem stopOuter_killed_mono (myhosts targeted : List String) :
    ∀ regs acc y, y ∈ acc.2 → y ∈ (stopOuter myhosts targeted regs acc).2 := by
  intro regs
  induction regs with
  | nil => intro acc y hy; exact hy
  | cons m rest ih =>
    intro acc y hy
    exact ih _ y (stopInner_killed_mono myhosts targeted m m.servers acc y hy)

theorem stopOuter_removes (myhosts targeted : List String) (m : SModule)
    (host : String) (port : Nat) (load : Int)
    (hcond : stopCond myhosts targeted m host = true)
    (hsrv : (host, port, load) ∈ m.servers) :
    ∀ regs acc, m ∈ regs →
      pidFileName m.id host port ∉ (stopOuter myhosts targeted regs acc).1 ∧
      (m.id, host, port) ∈ (stopOuter myhosts targeted regs acc).2 := by
  intro regs
  induction regs with
  | nil => intro acc h; exact absurd h (List.not_mem_nil _)
  | cons m2 rest ih =>
    intro acc hmem
    rcases List.mem_cons.mp hmem with heq | hrest
    · subst heq
      obtain ⟨h1, h2⟩ := stopInner_removes myhosts targeted m host port load hcond
        m.servers acc hsrv
      constructor
      · intro hx
        exact h1 (stopOuter_subset myhosts targeted rest _ _ hx)
      · exact stopOuter_killed_mono myhosts targeted rest _ _ h2
    · exact ih _ hrest

/-- C5 amended: after `stopservers`, every server entry that the probe
recorded (in `module.servers`) for a non-local, targeted module with a
host in this host's identity set has been signalled and its PID file
removed; PID files whose servers did not answer the probe are not
touched. -/
theorem stopservers_removes (reg : List SModule) (files : List String)
    (probe : String → Nat → Option Int) (myhosts targeted : List String)
    (reg2 : List SModule)
    (hfind : findservers reg files probe = Except.ok reg2)
    (m : SModule) (hm : m ∈ reg2) (host : String) (port : Nat) (load : Int)
    (hsrv : (host, port, load) ∈ m.servers)
    (hcond : stopCond myhosts targeted m host = true) :
    stopservers reg files probe myhosts targeted =
      Except.ok (reg2, (stopOuter myhosts targeted reg2 (files, [])).1,
        (stopOuter myhosts targeted reg2 (files, [])).2) ∧
    pidFileName m.id host port ∉ (stopOuter myhosts targeted reg2 (files, [])).1 ∧
    (m.id, host, port) ∈ (stopOuter myhosts targeted reg2 (files, [])).2 := by
  obtain ⟨h1, h2⟩ := stopOuter_removes myhosts targeted m host port load hcond hsrv
    reg2 (files, []) hm
  refine ⟨?_, h1, h2⟩
  unfold stopservers
  rw [hfind]

/-- Witness for C5's amended claim: one module, one PID file whose
server answers the probe; the file is removed and the kill is recorded. -/
theorem stopservers_removes_witness :
    pidFileName "m" "h1" 5000 ∉
      (stopOuter ["h1"] [] [⟨"m", false, false, [("h1", 5000, 0)]⟩]
        (["m.h1.5000.pid"], [])).1 ∧
    (("m" : String), ("h1" : String), (5000 : Nat)) ∈
      (stopOuter ["h1"] [] [⟨"m", false, false, [("h1", 5000, 0)]⟩]
        (["m.h1.5000.pid"], [])).2 :=
  (stopservers_removes [⟨"m", false, false, []⟩] ["m.h1.5000.pid"]
    (fun _ _ => some 0) ["h1"] [] [⟨"m", false, false, [("h1", 5000, 0)]⟩]
    (by rfl) ⟨"m", false, false, [("h1", 5000, 0)]⟩ (by simp) "h1" 5000 0
    (by simp) (by rfl)).2

/-- C5 counterexample: one PID file for a targeted, non-local module on
a host in the identity set, whose server does not answer the probe.
`stopservers` succeeds but the PID file is still there afterwards,
contradicting the claim's "regardless of whether the server responded
to a probe". -/
theorem stopservers_leaves_unprobed :
    stopservers [⟨"m", false, false, []⟩] ["m.h1.5000.pid"] (fun _ _ => none)
        ["h1"] [] =
      Except.ok ([⟨"m", false, false, []⟩], ["m.h1.5000.pid"], []) ∧
    parsePidName "m.h1.5000.pid" = some ("m", "h1", 5000) ∧
    ("h1" : String) ∈ (["h1"] : List String) := by
  refine ⟨rfl, rfl, by simp⟩

theorem fsStep_forcelocal (probe : String → Nat → Option Int)
    (reg : List SModule) (file : String) (reg2 : List SModule)
    (h : fsStep probe reg file = Except.ok reg2) (hinv : ForcelocalInv reg) :
    ForcelocalInv reg2 := by
  unfold fsStep at h
  split at h
  · injection h with h2
    exact h2 ▸ hinv
  · split at h
    · exact Except.noConfusion h
    · split at h
      · injection h with h2
        exact h2 ▸ hinv
      · injection h with h2
        rw [← h2]
        intro m hm hforce hne
        obtain ⟨m0, hm0, hmap⟩ := List.mem_map.mp hm
        by_cases hid : (m0.id == (pySplitDot file).dropLast.headD "") = true
        · rw [if_pos hid] at hmap
          have hf0 : m0.forcelocal = true := by
            rw [← hmap] at hforce
            exact hforce
          rw [← hmap]
          show (if m0.forcelocal then true else m0.localFlag) = true
          rw [hf0]
          simp
        · rw [if_neg hid] at hmap
          subst hmap
          exact hinv m0 hm0 hforce hne

theorem findserversLoop_forcelocal (probe : String → Nat → Option Int) :
    ∀ files reg reg2, findserversLoop probe files reg = Except.ok reg2 →
      ForcelocalInv reg → ForcelocalInv reg2 := by
  intro files
  induction files with
  | nil =>
    intro reg reg2 h hinv
    injection h with h2
    exact h2 ▸ hinv
  | cons file rest ih =>
    intro reg reg2 h hinv
    unfold findserversLoop at h
    split at h
    · exact Except.noConfusion h
    · rename_i regmid hstep
      exact ih regmid reg2 h (fsStep_forcelocal probe reg file regmid hstep hinv)

theorem findservers_forcelocal (reg : List SModule) (files : List String)
    (probe : String → Nat → Option Int) (reg2 : List SModule)
    (h : findservers reg files probe = Except.ok reg2) : ForcelocalInv reg2 := by
  refine findserversLoop_forcelocal probe files (resetServers reg) reg2 h ?_
  intro m hm hforce hne
  obtain ⟨m0, hm0, hmap⟩ := List.mem_map.mp hm
  exact absurd (by rw [← hmap]) hne

/-- C4 amended: the `local` flag of a module after construction equals
the boolean of its `local` settings key (false when absent) — it is not
derived from the configured servers; at run time the command-line
`forcelocal` override flips a module to local as soon as `findservers`
records a responding server for it. -/
theorem local_flag_amended :
    (∀ spec m, verifysettings spec = Except.ok m →
      m.localFlag = spec.localKey.getD false) ∧
    (∀ reg files probe reg2, findservers reg files probe = Except.ok reg2 →
      ∀ m ∈ reg2, m.forcelocal = true → m.servers ≠ [] → m.localFlag = true) :=
  ⟨verify_local_eq_setting,
   fun reg files probe reg2 h => findservers_forcelocal reg files probe reg2 h⟩

/-- Witness for C4's amended claim: a specification with servers
configured and `local: true` yields `local = true` (equal to its
settings key, not to "no servers"). -/
theorem local_flag_amended_witness :
    (⟨"m", [], false, true, [], [], [("h", 1)]⟩ : ModuleState).localFlag =
      (ModuleSpec.mk (some "m") none none (some true) none [("h", 1)] none
        [] []).localKey.getD false :=
  local_flag_amended.1
    (ModuleSpec.mk (some "m") none none (some true) none [("h", 1)] none [] [])
    ⟨"m", [], false, true, [], [], [("h", 1)]⟩ rfl

theorem effAppend_assoc (a b c : ConsumeEffect) :
    effAppend (effAppend a b) c = effAppend a (effAppend b c) := by
  simp [effAppend, List.append_assoc]

theorem effAppend_empty_left (b : ConsumeEffect) : effAppend emptyEff b = b := by
  cases b
  simp [effAppend, emptyEff]

theorem consumerLoop_append
    (po : String → PyData → PyData → String → Except String PyData)
    (ex : String → Except String Unit) (pre rest : List OutRecord)
    (hpre : ∀ r ∈ pre, r.isSentinel = false) :
    consumerLoop po ex (pre ++ rest) =
      effAppend (consumerLoop po ex pre) (consumerLoop po ex rest) := by
  induction pre with
  | nil =>
    rw [List.nil_append]
    rw [show consumerLoop po ex [] = emptyEff from rfl, effAppend_empty_left]
  | cons r pre ih =>
    have hr : r.isSentinel = false := hpre r (List.mem_cons_self r pre)
    rw [List.cons_append]
    simp only [consumerLoop, hr, Bool.false_eq_true, if_false]
    rw [ih (fun r2 h2 => hpre r2 (List.mem_cons_of_mem r h2)), effAppend_assoc]

theorem consumeRecord_po_error
    (po : String → PyData → PyData → String → Except String PyData)
    (ex : String → Except String Unit) (mid uid : String) (out inp : PyData)
    (msg : String) (htr : out.truthy = true)
    (hfail : po mid out inp uid = Except.error msg) :
    consumeRecord po ex ⟨some mid, some uid, out, inp⟩ =
      ⟨[(mid, uid)], [], [], [msg]⟩ := by
  simp only [consumeRecord, htr, hfail]
  rfl

theorem runQueries_executed (ex : String → Except String Unit) (mid : String) :
    ∀ qs, (runQueries ex mid qs).executed = qs.filter fun q => execOk ex q := by
  intro qs
  induction qs with
  | nil => rfl
  | cons q rest ih =>
    simp only [runQueries]
    cases hq : ex q with
    | ok u =>
      have hok : execOk ex q = true := by simp [execOk, hq]
      simp only [effAppend, List.filter_cons, hok]
      simp [ih]
    | error e =>
      have hok : execOk ex q = false := by simp [execOk, hq]
      simp only [effAppend, List.filter_cons, hok]
      simp [ih]

/-- C9: an exception in `processoutput` (or in one of the edit queries)
is contained: the failing record contributes only its logged failure,
every record before and after it is processed exactly as it would be on
its own, the remaining queries of a record keep executing past a failed
one, and the document is still finalised and saved after the loop. -/
theorem consumer_isolates_failures
    (po : String → PyData → PyData → String → Except String PyData)
    (ex : String → Except String Unit) (pre post : List OutRecord)
    (mid uid : String) (out inp : PyData) (msg : String)
    (htr : out.truthy = true)
    (hfail : po mid out inp uid = Except.error msg)
    (hpre : ∀ r ∈ pre, r.isSentinel = false) :
    (runConsumer po ex (pre ++ ⟨some mid, some uid, out, inp⟩ :: post)).2.1 = true ∧
    (runConsumer po ex (pre ++ ⟨some mid, some uid, out, inp⟩ :: post)).2.2 = true ∧
    consumerLoop po ex (pre ++ ⟨some mid, some uid, out, inp⟩ :: post) =
      effAppend (consumerLoop po ex pre)
        (effAppend ⟨[(mid, uid)], [], [], [msg]⟩ (consumerLoop po ex post)) ∧
    (∀ mid2 qs, (runQueries ex mid2 qs).executed =
      qs.filter fun q => execOk ex q) := by
  refine ⟨rfl, rfl, ?_, fun mid2 qs => runQueries_executed ex mid2 qs⟩
  rw [consumerLoop_append po ex pre _ hpre]
  congr 1
  show consumerLoop po ex (⟨some mid, some uid, out, inp⟩ :: post) = _
  simp only [consumerLoop]
  rw [show (OutRecord.isSentinel ⟨some mid, some uid, out, inp⟩) = false from rfl]
  simp only [Bool.false_eq_true, if_false]
  rw [consumeRecord_po_error po ex mid uid out inp msg htr hfail]

/-- Witness for C9: a failing `processoutput` on the only record still
leaves the document finalised. -/
theorem consumer_isolates_failures_witness :
    (runConsumer
      (fun mid _ _ _ => if mid == "bad" then Except.error "boom"
        else Except.ok (PyData.pylist ["q"]))
      (fun _ => Except.ok ())
      ([] ++ ⟨some "bad", some "u", PyData.pystr "x", PyData.pynone⟩ :: [])).2.1 =
      true :=
  (consumer_isolates_failures _ _ [] [] "bad" "u" (PyData.pystr "x")
    PyData.pynone "boom" rfl rfl (fun r hr => absurd hr (List.not_mem_nil r))).1

/-- C10: a result value that is non-null but falsy (empty list, empty
string) passes the worker's `is not None` test and is enqueued, but the
consumer's `elif outputdata:` truthiness test silently discards it:
`processoutput` is never called for it, it executes no queries and puts
nothing on the info queue. -/
theorem falsy_output_dropped (mid uid : String) (v inp : PyData)
    (hnn : v ≠ PyData.pynone) (hft : v.truthy = false) :
    workerEnqueue mid uid v inp = [⟨some mid, some uid, v, inp⟩] ∧
    ∀ po ex, consumerLoop po ex [⟨some mid, some uid, v, inp⟩] = emptyEff := by
  constructor
  · unfold workerEnqueue
    rw [if_neg hnn]
  · intro po ex
    simp only [consumerLoop]
    rw [show (OutRecord.isSentinel ⟨some mid, some uid, v, inp⟩) = false from rfl]
    simp only [Bool.false_eq_true, if_false]
    simp only [consumeRecord, hft]
    simp [consumerLoop, effAppend, emptyEff]

/-- Witness for C10 at the empty list, the archetypal non-null falsy
result. -/
theorem falsy_output_dropped_witness :
    workerEnqueue "m" "u" (PyData.pylist []) PyData.pynone =
      [⟨some "m", some "u", PyData.pylist [], PyData.pynone⟩] :=
  (falsy_output_dropped "m" "u" (PyData.pylist []) PyData.pynone
    (by decide) rfl).1

/-- Witness for C7's amended claim at two concrete specifications. -/
theorem duplicate_id_replaces_witness :
    parseconfigModules
      [ModuleSpec.mk (some "y") none none none none [] none [] [],
       ModuleSpec.mk (some "y") none none (some true) none [] none [] []] =
      Except.ok [("y", ⟨"y", [], false, true, [], [], []⟩)] :=
  duplicate_id_replaces
    (ModuleSpec.mk (some "y") none none none none [] none [] [])
    (ModuleSpec.mk (some "y") none none (some true) none [] none [] [])
    ⟨"y", [], false, false, [], [], []⟩ ⟨"y", [], false, true, [], [], []⟩
    rfl rfl rfl rfl rfl

end Gecco
